import Mathlib

/-!
Verification development for the go-ast-chroma chunk extractor.

The Go program (allsymbols.go, go_ast_parser.go) extracts top-level Go
declarations as "chunks" and rewrites import-alias qualifiers to their
full paths.  This file gives a shallow embedding of the program's pure
core: the string-rewriting canonicalizer `applyQualifierReplacements`,
the per-declaration locator loop of `processGoProject`, and the
`getTypeString`/`getSignature` rendering helpers, together with theorems
about them.

Strings are modelled as Lean `String` (a list of characters standing for
the Go byte string; all literals involved are ASCII, where Go bytes and
characters coincide).  Go map iteration order and `sort.Slice`
tie-breaking are nondeterministic; both are determined here by the order
of the entry list passed to `applyQualifierReplacements`, and theorems
quantify over that order where it matters.
-/

namespace GoAstChroma

/-- One step list of `strings.ReplaceAll s old new` from the Go standard
library: scan left to right, replace each non-overlapping occurrence of
`old`, never rescanning replacement text.  `fuel` bounds the number of
scan steps; every use supplies `fuel = length of the scanned list`, which
is always enough since each step consumes at least one character.  (The
program only ever calls this with a non-empty `old`, namely `alias ++ "."`;
the `!old.isEmpty` guard makes the function total in the same way.) -/
def replaceAllFuel (old new : List Char) : Nat → List Char → List Char
  | _, [] => []
  | 0, l => l
  | fuel + 1, c :: t =>
    if !old.isEmpty && old.isPrefixOf (c :: t) then
      new ++ replaceAllFuel old new fuel (t.drop (old.length - 1))
    else
      c :: replaceAllFuel old new fuel t

/-- Go `strings.ReplaceAll s old new`. -/
def stringsReplaceAll (s old new : String) : String :=
  ⟨replaceAllFuel old.data new.data s.data.length s.data⟩

/-- Whether `p` occurs as a contiguous substring of `s`
(Go `strings.Contains`), used to state no-occurrence hypotheses. -/
def hasOccurrence (p : List Char) : List Char → Bool
  | [] => p.isPrefixOf []
  | c :: t => p.isPrefixOf (c :: t) || hasOccurrence p t

/-- The placeholder prefix `placeholderPrefix` of allsymbols.go. -/
def placeholderPrefix : String := "__GO_QUALIFIER_TEMP_"

/-- Decimal rendering of a natural number, most significant digit first,
modelling `strconv.Itoa` / `fmt.Sprintf` with the `%d` verb.  `fuel`
bounds the recursion depth; `n + 1` is always enough. -/
def natToDigits : Nat → Nat → List Char
  | 0, _ => []
  | fuel + 1, n =>
    if n < 10 then [Nat.digitChar n]
    else natToDigits fuel (n / 10) ++ [Nat.digitChar (n % 10)]

/-- Decimal rendering of a natural number (Go `strconv.Itoa`). -/
def natRepr (n : Nat) : String := ⟨natToDigits (n + 1) n⟩

/-- The placeholder for the `i`-th alias encountered while iterating the
replacements map: `placeholderPrefix + strconv.Itoa(i) + "__"`. -/
def placeholderString (i : Nat) : String :=
  placeholderPrefix ++ natRepr i ++ "__"

/-- The loop of allsymbols.go that walks the `replacements` map with a
counter `i`, producing `(alias, placeholder, fullPath)` triples
(`tempMap` and `finalMap` merged into one association list).  The input
list order models the Go map iteration order. -/
def numberReplacements : Nat → List (String × String) → List (String × String × String)
  | _, [] => []
  | i, (a, path) :: rest => (a, placeholderString i, path) :: numberReplacements (i + 1) rest

/-- Insertion step of a stable sort by descending length of `key`.
`sort.Slice(l, fun i j => len l[i] > len l[j])` is not stable; ties are
resolved here by list order, which theorems quantify over. -/
def insertByLenDesc (key : α → String) (x : α) : List α → List α
  | [] => [x]
  | y :: ys =>
    if (key y).length > (key x).length then y :: insertByLenDesc key x ys
    else x :: y :: ys

/-- Sort by descending length of `key` (the two `sort.Slice` calls of
`applyQualifierReplacements`). -/
def sortByLenDesc (key : α → String) : List α → List α
  | [] => []
  | x :: xs => insertByLenDesc key x (sortByLenDesc key xs)

/-- allsymbols.go `applyQualifierReplacements`, after its AST-inspection
phase: `replacements` is the association list of the collected map
`alias ↦ fullImportPath` (pairwise distinct aliases; list order models
Go map iteration order).  Pass 1 replaces `alias + "."` by
`placeholder + "."` in descending alias-length order; pass 2 replaces
`placeholder + "."` by `fullPath + "."` in descending placeholder-length
order. -/
def applyQualifierReplacements (chunkCode : String) (replacements : List (String × String)) : String :=
  if replacements.isEmpty then chunkCode
  else
    let numbered := numberReplacements 0 replacements
    let pass1 := (sortByLenDesc (fun t => t.1) numbered).foldl
      (fun code t => stringsReplaceAll code (t.1 ++ ".") (t.2.1 ++ ".")) chunkCode
    (sortByLenDesc (fun t => t.2.1) numbered).foldl
      (fun code t => stringsReplaceAll code (t.2.1 ++ ".") (t.2.2 ++ ".")) pass1

/-- Go string slicing `s[a:b]` (with `0 ≤ a ≤ b ≤ len s` already
validated by the caller). -/
def strSlice (s : String) (a b : Nat) : String :=
  ⟨(s.data.drop a).take (b - a)⟩

/-- A metadata value: the `interface\x7b\x7d` values the program stores are
strings and line numbers. -/
inductive MetaVal where
  | str (s : String)
  | int (n : Nat)
deriving DecidableEq, Repr

/-- `ChromaDocument`: one output chunk.  The Go `Metadata` map is
modelled as an association list with pairwise distinct keys. -/
structure ChromaDocument where
  id : String
  document : String
  metadata : List (String × MetaVal)
deriving DecidableEq, Repr

/-- Association-list lookup, modelling reading a key of the metadata map. -/
def metaLookup (k : String) : List (String × MetaVal) → Option MetaVal
  | [] => none
  | (k', v) :: rest => if k' = k then some v else metaLookup k rest

/-- The diagnostics the locator logs while skipping bad input
(`log.Printf` calls at the three recovery sites of `processGoProject`). -/
inductive Diag where
  | unreadableFile (path : String)
  | invalidDeclSpan (path : String) (line : Nat) (s e : Int) (fileLen : Nat)
  | invalidSpecSpan (path : String) (line : Nat) (s e : Int) (fileLen : Nat)
  | skippedPackage (id : String)
deriving DecidableEq, Repr

/-- `genDecl.Tok` values relevant to the locator (`token.IMPORT`,
`token.VAR`, `token.CONST`, `token.TYPE`). -/
inductive TokM where
  | importTok
  | varTok
  | constTok
  | typeTok
deriving DecidableEq, Repr

/-- `genDecl.Tok.String()`. -/
def TokM.toGoString : TokM → String
  | .importTok => "import"
  | .varTok => "var"
  | .constTok => "const"
  | .typeTok => "type"

/-- The shape of a type spec's underlying type, as tested by the two
type assertions `typeSpec.Type.(*ast.StructType)` and
`typeSpec.Type.(*ast.InterfaceType)`. -/
inductive TypeShape where
  | structShape
  | interfaceShape
  | otherShape
deriving DecidableEq, Repr

/-- `type_category` derivation from the shape of `typeSpec.Type`. -/
def typeCategoryString : TypeShape → String
  | .structShape => "struct"
  | .interfaceShape => "interface"
  | .otherShape => "alias_or_basic"

/-- One `*ast.TypeSpec`, with the position data already read off the
fileset (`fset.Position(spec.Pos()/spec.End())`), the rendered
`getTypeString(typeSpec.Type, info)` result, and the alias map the
AST inspection of `applyQualifierReplacements` collects on this spec's
subtree. -/
structure TypeSpecM where
  name : String
  startLine : Nat
  endLine : Nat
  startOffset : Int
  endOffset : Int
  shape : TypeShape
  typeDefinition : String
  aliases : List (String × String)
deriving DecidableEq, Repr

/-- One `*ast.ValueSpec`.  `declaredType` is `getTypeString(valueSpec.Type)`
when `valueSpec.Type != nil`; `inferredType` is `TypeOf(Values[0]).String()`
when there is at least one initializer whose type resolves (both collapse
the nil checks of the source into `Option`). -/
structure ValueSpecM where
  names : List String
  startLine : Nat
  endLine : Nat
  startOffset : Int
  endOffset : Int
  declaredType : Option String
  inferredType : Option String
  aliases : List (String × String)
deriving DecidableEq, Repr

/-- One spec inside a `*ast.GenDecl` (`TypeSpec`, `ValueSpec`, or
`ImportSpec`; the latter matches neither type assertion of the spec loop
and so produces nothing). -/
inductive SpecM where
  | typeSpec (t : TypeSpecM)
  | valueSpec (v : ValueSpecM)
  | importSpec (startLine endLine : Nat) (startOffset endOffset : Int)
deriving DecidableEq, Repr

/-- `fset.Position(spec.Pos()).Offset`. -/
def SpecM.specStartOffset : SpecM → Int
  | .typeSpec t => t.startOffset
  | .valueSpec v => v.startOffset
  | .importSpec _ _ s _ => s

/-- `fset.Position(spec.End()).Offset`. -/
def SpecM.specEndOffset : SpecM → Int
  | .typeSpec t => t.endOffset
  | .valueSpec v => v.endOffset
  | .importSpec _ _ _ e => e

/-- `fset.Position(spec.Pos()).Line`. -/
def SpecM.specStartLine : SpecM → Nat
  | .typeSpec t => t.startLine
  | .valueSpec v => v.startLine
  | .importSpec l _ _ _ => l

/-- `fset.Position(spec.End()).Line`. -/
def SpecM.specEndLine : SpecM → Nat
  | .typeSpec t => t.endLine
  | .valueSpec v => v.endLine
  | .importSpec _ l _ _ => l

/-- One `*ast.FuncDecl`.  `recvType` is
`getTypeString(funcDecl.Recv.List[0].Type, info)` when the declaration
has a receiver (`funcDecl.Recv != nil && len(funcDecl.Recv.List) > 0`),
`signature` is `getSignature(funcDecl.Type, info)`, and `aliases` is the
alias map collected on the declaration's subtree. -/
structure FuncDeclM where
  name : String
  recvType : Option String
  signature : String
  startLine : Nat
  endLine : Nat
  startOffset : Int
  endOffset : Int
  aliases : List (String × String)
deriving DecidableEq, Repr

/-- One top-level declaration (`file.Decls` element): a `*ast.FuncDecl`
or a `*ast.GenDecl` with its token and specs.  The GenDecl's own span
is validated by the decl-level check even though its slice is unused
for the per-spec chunks. -/
inductive DeclM where
  | funcDecl (f : FuncDeclM)
  | genDecl (startLine : Nat) (startOffset endOffset : Int) (tok : TokM) (specs : List SpecM)
deriving DecidableEq, Repr

/-- One parsed source file: its path (from the fileset), the result of
`ioutil.ReadFile` (`none` models a read error), and its top-level
declarations. -/
structure FileM where
  path : String
  content : Option String
  decls : List DeclM
deriving DecidableEq, Repr

/-- One loaded package: `hasInfo` models
`pkg.TypesInfo != nil && pkg.Syntax != nil && pkg.Fset != nil`. -/
structure PkgM where
  id : String
  name : String
  hasInfo : Bool
  files : List FileM
deriving DecidableEq, Repr

/-- The chunk id `fmt.Sprintf("%s:%d-%d-%s", filePath, startLine,
endLine, name)` of allsymbols.go. -/
def mkChunkId (path : String) (startLine endLine : Nat) (name : String) : String :=
  path ++ ":" ++ natRepr startLine ++ "-" ++ natRepr endLine ++ "-" ++ name

/-- Concatenate the `(chunks, diags)` contributions of a loop body, in
loop order (the Go code appends to shared slices). -/
def combinePairs : List (List ChromaDocument × List Diag) → List ChromaDocument × List Diag
  | [] => ([], [])
  | (cs, ds) :: rest =>
    let r := combinePairs rest
    (cs ++ r.1, ds ++ r.2)

/-- The metadata built for a function or method declaration, with the
method overrides (`entity_type`, `entity_name`, `receiver_type`)
applied. -/
def funcMetadata (path pkgName : String) (f : FuncDeclM) : List (String × MetaVal) :=
  match f.recvType with
  | none =>
    [("file_path", .str path), ("package_name", .str pkgName),
     ("entity_type", .str "function"), ("entity_name", .str f.name),
     ("start_line", .int f.startLine), ("end_line", .int f.endLine),
     ("signature", .str f.signature)]
  | some recv =>
    [("file_path", .str path), ("package_name", .str pkgName),
     ("entity_type", .str "method"), ("entity_name", .str (recv ++ "." ++ f.name)),
     ("start_line", .int f.startLine), ("end_line", .int f.endLine),
     ("signature", .str f.signature), ("receiver_type", .str recv)]

/-- The entity name recorded for a value spec: all declared names joined
with `", "`. -/
def valueEntityName (v : ValueSpecM) : String :=
  String.intercalate ", " v.names

/-- Metadata for one type spec (common file/package fields copied, then
the per-spec fields of the spec loop). -/
def typeSpecMetadata (path pkgName : String) (tok : TokM) (t : TypeSpecM) : List (String × MetaVal) :=
  [("file_path", .str path), ("package_name", .str pkgName),
   ("start_line", .int t.startLine), ("end_line", .int t.endLine),
   ("declaration_kind", .str tok.toGoString),
   ("entity_type", .str "type_declaration"), ("entity_name", .str t.name),
   ("type_definition", .str t.typeDefinition),
   ("type_category", .str (typeCategoryString t.shape))]

/-- Metadata for one value spec.  `declared_type` is set when the spec
has an explicit type, else `inferred_type` when the first initializer's
type resolves, else neither. -/
def valueSpecMetadata (path pkgName : String) (tok : TokM) (v : ValueSpecM) : List (String × MetaVal) :=
  [("file_path", .str path), ("package_name", .str pkgName),
   ("start_line", .int v.startLine), ("end_line", .int v.endLine),
   ("declaration_kind", .str tok.toGoString),
   ("entity_type", .str "value_declaration"), ("entity_name", .str (valueEntityName v))]
  ++ (match v.declaredType with
      | some d => [("declared_type", .str d)]
      | none =>
        match v.inferredType with
        | some t => [("inferred_type", .str t)]
        | none => [])

/-- The body of the spec loop of `processGoProject` for one spec:
validate the spec's offsets (skip with a warning when invalid), then
build the per-spec chunk for a `TypeSpec` or `ValueSpec`; an
`ImportSpec` matches neither case and yields nothing. -/
def processSpec (path pkgName : String) (content : String) (tok : TokM) (sp : SpecM) :
    List ChromaDocument × List Diag :=
  if sp.specStartOffset < 0 ∨ sp.specEndOffset > (content.length : Int) ∨
      sp.specStartOffset > sp.specEndOffset then
    ([], [.invalidSpecSpan path sp.specStartLine sp.specStartOffset sp.specEndOffset content.length])
  else
    let specChunkCode := strSlice content sp.specStartOffset.toNat sp.specEndOffset.toNat
    match sp with
    | .typeSpec t =>
      ([{ id := mkChunkId path t.startLine t.endLine t.name,
          document := applyQualifierReplacements specChunkCode t.aliases,
          metadata := typeSpecMetadata path pkgName tok t }], [])
    | .valueSpec v =>
      ([{ id := mkChunkId path v.startLine v.endLine (valueEntityName v),
          document := applyQualifierReplacements specChunkCode v.aliases,
          metadata := valueSpecMetadata path pkgName tok v }], [])
    | .importSpec _ _ _ _ => ([], [])

/-- The body of the declaration loop of `processGoProject` for one
declaration: validate the declaration's offsets (skip with a warning
when invalid), then emit one chunk for a function declaration, or
process each spec of a general declaration (skipping the whole
declaration when its token is `import`). -/
def processDecl (path pkgName : String) (content : String) : DeclM → List ChromaDocument × List Diag
  | .funcDecl f =>
    if f.startOffset < 0 ∨ f.endOffset > (content.length : Int) ∨ f.startOffset > f.endOffset then
      ([], [.invalidDeclSpan path f.startLine f.startOffset f.endOffset content.length])
    else
      let declChunkCode := strSlice content f.startOffset.toNat f.endOffset.toNat
      ([{ id := mkChunkId path f.startLine f.endLine f.name,
          document := applyQualifierReplacements declChunkCode f.aliases,
          metadata := funcMetadata path pkgName f }], [])
  | .genDecl startLine s e tok specs =>
    if s < 0 ∨ e > (content.length : Int) ∨ s > e then
      ([], [.invalidDeclSpan path startLine s e content.length])
    else if tok = .importTok then ([], [])
    else combinePairs (specs.map (processSpec path pkgName content tok))

/-- The per-file body of `processGoProject`: read the file (skip the
whole file with a logged error when unreadable), then process every
top-level declaration. -/
def processFileM (pkgName : String) (f : FileM) : List ChromaDocument × List Diag :=
  match f.content with
  | none => ([], [.unreadableFile f.path])
  | some content => combinePairs (f.decls.map (processDecl f.path pkgName content))

/-- The per-package body of `processGoProject`: skip the package when
type information, syntax trees, or the fileset are missing. -/
def processPkg (p : PkgM) : List ChromaDocument × List Diag :=
  if p.hasInfo then combinePairs (p.files.map (processFileM p.name))
  else ([], [.skippedPackage p.id])

/-- `processGoProject` after `packages.Load`: a load failure is returned
as an error; otherwise every package is processed and the chunk list is
returned without error. -/
def processGoProject (loadResult : Except String (List PkgM)) :
    Except String (List ChromaDocument × List Diag) :=
  match loadResult with
  | .error e => .error ("failed to load packages: " ++ e)
  | .ok pkgs => .ok (combinePairs (pkgs.map processPkg))

/-- Channel direction of an `*ast.ChanType` (`ast.SEND`, `ast.RECV`, or
neither). -/
inductive ChanDir where
  | send
  | recv
  | both
deriving DecidableEq, Repr

mutual
/-- An `ast.Expr` as far as `getTypeString` distinguishes shapes: the
nine cases of its type switch plus `otherExpr` for every other node
kind, which carries the `printer.Fprint` rendering when printing
succeeds (`none` models a print error) and the `fmt.Sprintf` with the
`%T` verb type tag. -/
inductive GoExpr where
  | identE (name : String)
  | starE (x : GoExpr)
  | arrayTypeE (elt : GoExpr)
  | mapTypeE (key : GoExpr) (value : GoExpr)
  | selectorE (x : GoExpr) (sel : String)
  | interfaceTypeE
  | chanTypeE (dir : ChanDir) (value : GoExpr)
  | ellipsisE (elt : GoExpr)
  | funcTypeE (ft : GoFuncType)
  | otherExpr (printed : Option String) (typeTag : String)

/-- An `*ast.FuncType`: nil-able parameter and result `*ast.FieldList`. -/
inductive GoFuncType where
  | mk (params : Option GoFieldList) (results : Option GoFieldList)

/-- A `[]*ast.Field`: each field has a (possibly empty, modelling nil)
name list and a type expression. -/
inductive GoFieldList where
  | nil
  | cons (names : List String) (fieldType : GoExpr) (rest : GoFieldList)
end

/-- The resolved-type collaborator as `getTypeString` consumes it:
`typeOf e` is `info.TypeOf(expr).String()` when the expression's type
resolves (`none` models a nil type), and `usesPkgPath x` is
`pkgName.Imported().Path()` when `info.Uses` maps the identifier named
`x` to a `*types.PkgName` (`none` models no use entry or a non-package
object). -/
structure TypesInfoM where
  typeOf : GoExpr → Option String
  usesPkgPath : String → Option String

/-- `ast.SEND`, `ast.RECV`, default prefixes of the `*ast.ChanType`
case. -/
def chanDirPrefix : ChanDir → String
  | .send => "chan<- "
  | .recv => "<-chan "
  | .both => "chan "

mutual
/-- allsymbols.go `getTypeString`, with an explicit recursion budget:
`none` is returned only when `fuel` runs out, so `isSome` of the result
at sufficient fuel is exactly termination-with-a-string of the Go
recursion.  Every syntactic case mirrors the source's type switch; the
default case returns the printed dump when `printer.Fprint` succeeds and
the type tag otherwise, so no case can fail. -/
def getTypeString (info : TypesInfoM) : Nat → GoExpr → Option String
  | 0, _ => none
  | fuel + 1, e =>
    match info.typeOf e with
    | some tv => some tv
    | none =>
      match e with
      | .identE n => some n
      | .starE x => (getTypeString info fuel x).map (fun s => "*" ++ s)
      | .arrayTypeE elt => (getTypeString info fuel elt).map (fun s => "[]" ++ s)
      | .mapTypeE k v =>
        match getTypeString info fuel k, getTypeString info fuel v with
        | some ks, some vs => some ("map[" ++ ks ++ "]" ++ vs)
        | _, _ => none
      | .selectorE x sel =>
        match x with
        | .identE n =>
          match info.usesPkgPath n with
          | some path => some (path ++ "." ++ sel)
          | none => (getTypeString info fuel x).map (fun s => s ++ "." ++ sel)
        | _ => (getTypeString info fuel x).map (fun s => s ++ "." ++ sel)
      | .interfaceTypeE => some "interface{}"
      | .chanTypeE dir v => (getTypeString info fuel v).map (fun s => chanDirPrefix dir ++ s)
      | .ellipsisE elt => (getTypeString info fuel elt).map (fun s => "..." ++ s)
      | .funcTypeE ft => (getSignature info fuel ft).map (fun s => "func" ++ s)
      | .otherExpr printed typeTag => some (printed.getD typeTag)

/-- The accumulation loops of `getSignature` over one `*ast.FieldList`:
for each field render its type, then append the bare type string when
the field has no names, else one `name + " " + typeStr` entry per
name. -/
def fieldStrings (info : TypesInfoM) : Nat → GoFieldList → Option (List String)
  | 0, _ => none
  | _ + 1, .nil => some []
  | fuel + 1, .cons names fieldType rest =>
    match getTypeString info fuel fieldType with
    | none => none
    | some typeStr =>
      match fieldStrings info fuel rest with
      | none => none
      | some tail =>
        if names.isEmpty then some (typeStr :: tail)
        else some (names.map (fun nm => nm ++ " " ++ typeStr) ++ tail)

/-- allsymbols.go `getSignature`: parameter list in parentheses, then
the result list, parenthesised unless it is a single unnamed result. -/
def getSignature (info : TypesInfoM) : Nat → GoFuncType → Option String
  | 0, _ => none
  | fuel + 1, .mk params results =>
    let paramsStrings :=
      match params with
      | none => some []
      | some fl => fieldStrings info fuel fl
    match paramsStrings with
    | none => none
    | some ps =>
      let paramStr := "(" ++ String.intercalate ", " ps ++ ")"
      let resultsStrings :=
        match results with
        | none => some []
        | some fl => fieldStrings info fuel fl
      match resultsStrings with
      | none => none
      | some rs =>
        let resultStr :=
          if rs.isEmpty then ""
          else
            match rs, results with
            | [r], some (.cons names _ _) =>
              if names.isEmpty then " " ++ r
              else " (" ++ String.intercalate ", " rs ++ ")"
            | _, _ => " (" ++ String.intercalate ", " rs ++ ")"
        some (paramStr ++ resultStr)
end

mutual
/-- A recursion measure for `GoExpr`: one plus the sizes of all
sub-expressions, so that every recursive call of `getTypeString` /
`getSignature` / `fieldStrings` strictly decreases it. -/
def exprSize : GoExpr → Nat
  | .identE _ => 1
  | .starE x => exprSize x + 1
  | .arrayTypeE elt => exprSize elt + 1
  | .mapTypeE k v => exprSize k + exprSize v + 1
  | .selectorE x _ => exprSize x + 1
  | .interfaceTypeE => 1
  | .chanTypeE _ v => exprSize v + 1
  | .ellipsisE elt => exprSize elt + 1
  | .funcTypeE ft => funcTypeSize ft + 1
  | .otherExpr _ _ => 1

/-- Recursion measure for `GoFuncType`. -/
def funcTypeSize : GoFuncType → Nat
  | .mk params results =>
    (match params with | none => 0 | some fl => fieldListSize fl) +
    (match results with | none => 0 | some fl => fieldListSize fl) + 1

/-- Recursion measure for `GoFieldList`. -/
def fieldListSize : GoFieldList → Nat
  | .nil => 1
  | .cons _ fieldType rest => exprSize fieldType + fieldListSize rest + 1
end

/-! ### Lemmas about the canonicalizer -/

theorem replaceAllFuel_of_no_occurrence (old new : List Char) :
    ∀ (fuel : Nat) (s : List Char), hasOccurrence old s = false →
      replaceAllFuel old new fuel s = s := by
  intro fuel
  induction fuel with
  | zero => intro s _ ; cases s <;> rfl
  | succ fuel ih =>
    intro s h
    cases s with
    | nil => rfl
    | cons c t =>
      simp only [hasOccurrence, Bool.or_eq_false_iff] at h
      simp only [replaceAllFuel, h.1, Bool.and_false, if_neg Bool.false_ne_true]
      exact congrArg (c :: ·) (ih t h.2)

theorem stringsReplaceAll_of_no_occurrence (s old new : String)
    (h : hasOccurrence old.data s.data = false) :
    stringsReplaceAll s old new = s := by
  unfold stringsReplaceAll
  rw [replaceAllFuel_of_no_occurrence old.data new.data s.data.length s.data h]

theorem foldl_stringsReplaceAll_id {α : Type} (p r : α → String) :
    ∀ (l : List α) (s : String), (∀ t ∈ l, hasOccurrence (p t).data s.data = false) →
      l.foldl (fun code t => stringsReplaceAll code (p t) (r t)) s = s := by
  intro l
  induction l with
  | nil => intro s _ ; rfl
  | cons t rest ih =>
    intro s h
    have h1 : stringsReplaceAll s (p t) (r t) = s :=
      stringsReplaceAll_of_no_occurrence s (p t) (r t) (h t (by simp))
    simp only [List.foldl_cons, h1]
    exact ih s (fun u hu => h u (by simp [hu]))

theorem mem_insertByLenDesc {α : Type} (key : α → String) (a : α) :
    ∀ (l : List α) (x : α), x ∈ insertByLenDesc key a l → x = a ∨ x ∈ l := by
  intro l
  induction l with
  | nil => intro x hx ; simpa [insertByLenDesc] using hx
  | cons y ys ih =>
    intro x hx
    simp only [insertByLenDesc] at hx
    by_cases hc : (key y).length > (key a).length
    · rw [if_pos hc] at hx
      rcases List.mem_cons.mp hx with h | h
      · exact Or.inr (by simp [h])
      · rcases ih x h with h' | h'
        · exact Or.inl h'
        · exact Or.inr (by simp [h'])
    · rw [if_neg hc] at hx
      rcases List.mem_cons.mp hx with h | h
      · exact Or.inl h
      · exact Or.inr h

theorem mem_sortByLenDesc {α : Type} (key : α → String) :
    ∀ (l : List α) (x : α), x ∈ sortByLenDesc key l → x ∈ l := by
  intro l
  induction l with
  | nil => intro x hx ; simp [sortByLenDesc] at hx
  | cons y ys ih =>
    intro x hx
    simp only [sortByLenDesc] at hx
    rcases mem_insertByLenDesc key y (sortByLenDesc key ys) x hx with h | h
    · simp [h]
    · exact List.mem_cons_of_mem y (ih x h)

theorem mem_numberReplacements :
    ∀ (l : List (String × String)) (i : Nat) (t : String × String × String),
      t ∈ numberReplacements i l →
      (t.1, t.2.2) ∈ l ∧ ∃ j, j < l.length ∧ t.2.1 = placeholderString (i + j) := by
  intro l
  induction l with
  | nil => intro i t ht ; simp [numberReplacements] at ht
  | cons hd rest ih =>
    intro i t ht
    obtain ⟨a, path⟩ := hd
    simp only [numberReplacements, List.mem_cons] at ht
    rcases ht with h | h
    · subst h
      exact ⟨by simp, 0, by simp⟩
    · obtain ⟨hmem, j, hj, hph⟩ := ih (i + 1) t h
      refine ⟨List.mem_cons_of_mem _ hmem, j + 1, by simpa using hj, ?_⟩
      rw [hph] ; ring_nf

/-- If no `alias + "."` and no `placeholder + "."` occurs anywhere in the
text, `applyQualifierReplacements` returns the text unchanged. -/
theorem applyQualifierReplacements_unchanged (s : String) (repl : List (String × String))
    (h1 : ∀ pr ∈ repl, hasOccurrence (pr.1 ++ ".").data s.data = false)
    (h2 : ∀ i, i < repl.length → hasOccurrence (placeholderString i ++ ".").data s.data = false) :
    applyQualifierReplacements s repl = s := by
  unfold applyQualifierReplacements
  by_cases he : repl.isEmpty
  · rw [if_pos he]
  · rw [if_neg he]
    have hpass1 :
        (sortByLenDesc (fun t => t.1) (numberReplacements 0 repl)).foldl
          (fun code t => stringsReplaceAll code (t.1 ++ ".") (t.2.1 ++ ".")) s = s := by
      apply foldl_stringsReplaceAll_id
      intro t ht
      have hmem := mem_numberReplacements repl 0 t
        (mem_sortByLenDesc (fun t => t.1) (numberReplacements 0 repl) t ht)
      exact h1 (t.1, t.2.2) hmem.1
    have hpass2 :
        (sortByLenDesc (fun t => t.2.1) (numberReplacements 0 repl)).foldl
          (fun code t => stringsReplaceAll code (t.2.1 ++ ".") (t.2.2 ++ ".")) s = s := by
      apply foldl_stringsReplaceAll_id
      intro t ht
      have hmem := mem_numberReplacements repl 0 t
        (mem_sortByLenDesc (fun t => t.2.1) (numberReplacements 0 repl) t ht)
      obtain ⟨_, j, hj, hph⟩ := hmem
      rw [hph]
      simpa using h2 j hj
    simp only [hpass1, hpass2]

/-! ### Claim theorems about the Qualifier Canonicalizer -/

/-- C1: on the alias map mapping "a" to "pkg/a" and "ab" to "pkg/ab" and
the input text "ab.Foo(); a.Bar()", `applyQualifierReplacements` yields
exactly "pkg/ab.Foo(); pkg/a.Bar()" — under either iteration order of
the two-entry map the longer alias "ab" is never partially consumed by
the shorter alias "a". -/
theorem qualifier_no_collateral_rewrite :
    applyQualifierReplacements "ab.Foo(); a.Bar()" [("a", "pkg/a"), ("ab", "pkg/ab")]
        = "pkg/ab.Foo(); pkg/a.Bar()"
    ∧ applyQualifierReplacements "ab.Foo(); a.Bar()" [("ab", "pkg/ab"), ("a", "pkg/a")]
        = "pkg/ab.Foo(); pkg/a.Bar()" := by
  constructor <;> decide

/-- C2 counterexample: with the alias map mapping "x" to "company/x" and
the input "x.Use(company.x.Other)", the code does NOT leave the
pre-existing substring "company.x.Other" unchanged: the textual
replacement of every occurrence of `"x."` also rewrites it, so the
output is not the claimed "company/x.Use(company.x.Other)". -/
theorem qualifier_self_referential_cex :
    applyQualifierReplacements "x.Use(company.x.Other)" [("x", "company/x")]
      ≠ "company/x.Use(company.x.Other)" := by
  decide

/-- C2 amended: on alias map mapping "x" to "company/x" and input
"x.Use(company.x.Other)", both the genuine alias-qualified occurrence
`x.Use` and the pre-existing substring `company.x.Other` are rewritten
(every textual occurrence of `"x."` is replaced), giving
"company/x.Use(company.company/x.Other)". -/
theorem qualifier_self_referential_actual :
    applyQualifierReplacements "x.Use(company.x.Other)" [("x", "company/x")]
      = "company/x.Use(company.company/x.Other)" := by
  decide

/-- C3 counterexample: with alias map mapping "a" to "pkg/a", the text
"a.X(data.Field)" does not keep the identifier `data` intact: the
occurrence of `"a."` inside `data.Field` — a substring of a longer
identifier, not a qualified reference of the shape
`identifier "." member` — is rewritten as well, so the output differs
from the claimed "pkg/a.X(data.Field)". -/
theorem qualifier_exact_shape_cex :
    applyQualifierReplacements "a.X(data.Field)" [("a", "pkg/a")]
        = "pkg/a.X(datpkg/a.Field)"
    ∧ applyQualifierReplacements "a.X(data.Field)" [("a", "pkg/a")]
        ≠ "pkg/a.X(data.Field)" := by
  constructor <;> decide

/-- C3 amended: the canonicalizer rewrites every textual occurrence of
`alias + "."` in the chunk, whatever its syntactic context (string
literals, comments, and interiors of longer identifiers included);
text is left byte-for-byte unchanged exactly when it contains no
occurrence of any `alias + "."` and no occurrence of any generated
`placeholder + "."`. -/
theorem qualifier_rewrite_is_textual (s : String) (repl : List (String × String))
    (h1 : ∀ pr ∈ repl, hasOccurrence (pr.1 ++ ".").data s.data = false)
    (h2 : ∀ i, i < repl.length → hasOccurrence (placeholderString i ++ ".").data s.data = false) :
    applyQualifierReplacements s repl = s :=
  applyQualifierReplacements_unchanged s repl h1 h2

/-- Witness for `qualifier_rewrite_is_textual`: the text "foo.Bar()"
contains no occurrence of `"a."` nor of the placeholder token, and is
returned unchanged. -/
theorem qualifier_rewrite_is_textual_witness :
    (∀ pr ∈ [("a", "pkg/a")], hasOccurrence (pr.1 ++ ".").data "foo.Bar()".data = false)
    ∧ (∀ i, i < [("a", "pkg/a")].length →
        hasOccurrence (placeholderString i ++ ".").data "foo.Bar()".data = false)
    ∧ applyQualifierReplacements "foo.Bar()" [("a", "pkg/a")] = "foo.Bar()" :=
  ⟨by decide, by decide,
    qualifier_rewrite_is_textual "foo.Bar()" [("a", "pkg/a")] (by decide) (by decide)⟩

/-- C4 counterexample: canonicalization is not idempotent.  With alias
map mapping "x" to "company/x", the first application turns "x.Use()"
into "company/x.Use()", and a second application rewrites the
occurrence of `"x."` inside the inserted canonical path, producing
"company/company/x.Use()". -/
theorem qualifier_not_idempotent_cex :
    applyQualifierReplacements
        (applyQualifierReplacements "x.Use()" [("x", "company/x")]) [("x", "company/x")]
      ≠ applyQualifierReplacements "x.Use()" [("x", "company/x")] := by
  decide

/-- C4 amended: a second application of the canonicalizer (same alias
map) is a no-op precisely on texts in which no `alias + "."` and no
`placeholder + "."` occurrence remains; in particular it is a no-op on
a canonicalized chunk whenever the canonical paths do not themselves
end in an alias (unlike "x" mapped to "company/x", where they do). -/
theorem qualifier_idempotent_when_no_alias_remains
    (chunk : String) (repl : List (String × String))
    (h1 : ∀ pr ∈ repl,
      hasOccurrence (pr.1 ++ ".").data (applyQualifierReplacements chunk repl).data = false)
    (h2 : ∀ i, i < repl.length →
      hasOccurrence (placeholderString i ++ ".").data
        (applyQualifierReplacements chunk repl).data = false) :
    applyQualifierReplacements (applyQualifierReplacements chunk repl) repl
      = applyQualifierReplacements chunk repl :=
  applyQualifierReplacements_unchanged (applyQualifierReplacements chunk repl) repl h1 h2

/-- Witness for `qualifier_idempotent_when_no_alias_remains`: with
"ab" mapped to "zz/qq", the canonicalized chunk "zz/qq.Foo()" contains
no further occurrence of `"ab."` or of the placeholder, and the second
application returns it unchanged. -/
theorem qualifier_idempotent_witness :
    (∀ pr ∈ [("ab", "zz/qq")],
      hasOccurrence (pr.1 ++ ".").data
        (applyQualifierReplacements "ab.Foo()" [("ab", "zz/qq")]).data = false)
    ∧ (∀ i, i < [("ab", "zz/qq")].length →
        hasOccurrence (placeholderString i ++ ".").data
          (applyQualifierReplacements "ab.Foo()" [("ab", "zz/qq")]).data = false)
    ∧ applyQualifierReplacements
        (applyQualifierReplacements "ab.Foo()" [("ab", "zz/qq")]) [("ab", "zz/qq")]
      = applyQualifierReplacements "ab.Foo()" [("ab", "zz/qq")] :=
  ⟨by decide, by decide,
    qualifier_idempotent_when_no_alias_remains "ab.Foo()" [("ab", "zz/qq")]
      (by decide) (by decide)⟩

/-- C10 counterexample: `applyQualifierReplacements` is not
deterministic across Go map iteration orders.  With aliases
"longalias9" (mapped to "PX") and "TEMP_0__" (mapped to "PY") — the
latter a legal Go identifier that collides with the generated
placeholder text — the two iteration orders of the same two-entry map
give different outputs on the same text "longalias9.f". -/
theorem qualifier_nondeterminism_cex :
    applyQualifierReplacements "longalias9.f" [("longalias9", "PX"), ("TEMP_0__", "PY")]
      ≠ applyQualifierReplacements "longalias9.f" [("TEMP_0__", "PY"), ("longalias9", "PX")] := by
  decide

/-- C10 amended: the output can depend on the map iteration order when
an alias collides with the generated placeholder tokens (see the
counterexample, where "TEMP_0__" matches inside a placeholder inserted
by pass 1, so the placeholder numbering leaks into the output).  For
collision-free alias maps the order does not matter; on the map sending
"log" to "mylog" and "logrus" to "sirupsen/logrus" — the prefix-pair
example of the source's own comments — both iteration orders produce
the same output "sirupsen/logrus.Info(); mylog.Print()". -/
theorem qualifier_deterministic_when_collision_free :
    applyQualifierReplacements "logrus.Info(); log.Print()"
        [("log", "mylog"), ("logrus", "sirupsen/logrus")]
        = "sirupsen/logrus.Info(); mylog.Print()"
    ∧ applyQualifierReplacements "logrus.Info(); log.Print()"
        [("logrus", "sirupsen/logrus"), ("log", "mylog")]
        = "sirupsen/logrus.Info(); mylog.Print()" := by
  constructor <;> decide

/-! ### Lemmas about the locator -/

theorem mem_combinePairs_fst :
    ∀ (l : List (List ChromaDocument × List Diag)) (c : ChromaDocument),
      c ∈ (combinePairs l).1 → ∃ p ∈ l, c ∈ p.1 := by
  intro l
  induction l with
  | nil => intro c hc ; simp [combinePairs] at hc
  | cons p rest ih =>
    intro c hc
    simp only [combinePairs, List.mem_append] at hc
    rcases hc with h | h
    · exact ⟨p, by simp, h⟩
    · obtain ⟨q, hq, hcq⟩ := ih c h
      exact ⟨q, by simp [hq], hcq⟩

theorem combinePairs_append :
    ∀ (a b : List (List ChromaDocument × List Diag)),
      combinePairs (a ++ b)
        = ((combinePairs a).1 ++ (combinePairs b).1, (combinePairs a).2 ++ (combinePairs b).2) := by
  intro a b
  induction a with
  | nil => simp [combinePairs]
  | cons p rest ih => simp [combinePairs, ih, List.append_assoc]

theorem combinePairs_cons (p : List ChromaDocument × List Diag)
    (l : List (List ChromaDocument × List Diag)) :
    combinePairs (p :: l) = (p.1 ++ (combinePairs l).1, p.2 ++ (combinePairs l).2) := rfl

/-- Every chunk emitted for a file comes from a validated span of the
file's buffer: its id is built by `mkChunkId` from the file path, a line
range recorded in the metadata, and a name, and its document is the
canonicalization of the buffer slice of the validated offsets. -/
theorem processFileM_mem_chunk (pkgName : String) (file : FileM) (c : ChromaDocument)
    (hc : c ∈ (processFileM pkgName file).1) :
    ∃ (content : String) (sLine eLine : Nat) (s e : Int)
      (nm : String) (al : List (String × String)),
      file.content = some content ∧
      0 ≤ s ∧ s ≤ e ∧ e ≤ (content.length : Int) ∧
      c.id = mkChunkId file.path sLine eLine nm ∧
      c.document = applyQualifierReplacements (strSlice content s.toNat e.toNat) al ∧
      metaLookup "start_line" c.metadata = some (.int sLine) ∧
      metaLookup "end_line" c.metadata = some (.int eLine) := by
  unfold processFileM at hc
  cases hcontent : file.content with
  | none => rw [hcontent] at hc ; simp at hc
  | some content =>
    rw [hcontent] at hc
    obtain ⟨p, hp, hcp⟩ := mem_combinePairs_fst _ c hc
    obtain ⟨d, _, hpd⟩ := List.mem_map.mp hp
    subst hpd
    refine ⟨content, ?_⟩
    cases d with
    | funcDecl f =>
      simp only [processDecl] at hcp
      by_cases hv : f.startOffset < 0 ∨ f.endOffset > (content.length : Int) ∨
          f.startOffset > f.endOffset
      · rw [if_pos hv] at hcp ; simp at hcp
      · rw [if_neg hv] at hcp
        push_neg at hv
        simp only [List.mem_singleton] at hcp
        subst hcp
        refine ⟨f.startLine, f.endLine, f.startOffset, f.endOffset, f.name, f.aliases,
          rfl, by omega, hv.2.2, hv.2.1, rfl, rfl, ?_, ?_⟩
        · unfold funcMetadata ; cases f.recvType <;> rfl
        · unfold funcMetadata ; cases f.recvType <;> rfl
    | genDecl startLine ds de tok specs =>
      simp only [processDecl] at hcp
      by_cases hv : ds < 0 ∨ de > (content.length : Int) ∨ ds > de
      · rw [if_pos hv] at hcp ; simp at hcp
      · rw [if_neg hv] at hcp
        by_cases ht : tok = .importTok
        · rw [if_pos ht] at hcp ; simp at hcp
        · rw [if_neg ht] at hcp
          obtain ⟨q, hq, hcq⟩ := mem_combinePairs_fst _ c hcp
          obtain ⟨sp, _, hqs⟩ := List.mem_map.mp hq
          subst hqs
          simp only [processSpec] at hcq
          by_cases hsv : sp.specStartOffset < 0 ∨ sp.specEndOffset > (content.length : Int) ∨
              sp.specStartOffset > sp.specEndOffset
          · rw [if_pos hsv] at hcq ; simp at hcq
          · rw [if_neg hsv] at hcq
            push_neg at hsv
            cases sp with
            | typeSpec t =>
              simp only [SpecM.specStartOffset, SpecM.specEndOffset] at hsv hcq
              simp only [List.mem_singleton] at hcq
              subst hcq
              exact ⟨t.startLine, t.endLine, t.startOffset, t.endOffset, t.name, t.aliases,
                rfl, by omega, hsv.2.2, hsv.2.1, rfl, rfl, rfl, rfl⟩
            | valueSpec v =>
              simp only [SpecM.specStartOffset, SpecM.specEndOffset] at hsv hcq
              simp only [List.mem_singleton] at hcq
              subst hcq
              exact ⟨v.startLine, v.endLine, v.startOffset, v.endOffset, valueEntityName v,
                v.aliases, rfl, by omega, hsv.2.2, hsv.2.1, rfl, rfl, rfl, rfl⟩
            | importSpec a b u w => simp at hcq

/-- Statement helper: the entity name a spec's chunk records
(`typeSpec.Name.Name` for type specs, the joined name list for value
specs; import specs never produce a chunk and get a dummy value). -/
def SpecM.entityNameM : SpecM → String
  | .typeSpec t => t.name
  | .valueSpec v => valueEntityName v
  | .importSpec _ _ _ _ => ""

/-- Statement helper: whether a spec is an `*ast.ImportSpec`. -/
def SpecM.isImportSpecB : SpecM → Bool
  | .importSpec _ _ _ _ => true
  | _ => false

/-- Unfolding of the spec loop body on a type spec with a valid span. -/
theorem processSpec_typeSpec (path pkgName content : String) (tok : TokM) (t : TypeSpecM)
    (hv : ¬((SpecM.typeSpec t).specStartOffset < 0 ∨
        (SpecM.typeSpec t).specEndOffset > (content.length : Int) ∨
        (SpecM.typeSpec t).specStartOffset > (SpecM.typeSpec t).specEndOffset)) :
    processSpec path pkgName content tok (.typeSpec t) =
      ([{ id := mkChunkId path t.startLine t.endLine t.name,
          document := applyQualifierReplacements
            (strSlice content t.startOffset.toNat t.endOffset.toNat) t.aliases,
          metadata := typeSpecMetadata path pkgName tok t }], []) := by
  unfold processSpec
  rw [if_neg hv]
  rfl

/-- Unfolding of the spec loop body on a value spec with a valid span. -/
theorem processSpec_valueSpec (path pkgName content : String) (tok : TokM) (v : ValueSpecM)
    (hv : ¬((SpecM.valueSpec v).specStartOffset < 0 ∨
        (SpecM.valueSpec v).specEndOffset > (content.length : Int) ∨
        (SpecM.valueSpec v).specStartOffset > (SpecM.valueSpec v).specEndOffset)) :
    processSpec path pkgName content tok (.valueSpec v) =
      ([{ id := mkChunkId path v.startLine v.endLine (valueEntityName v),
          document := applyQualifierReplacements
            (strSlice content v.startOffset.toNat v.endOffset.toNat) v.aliases,
          metadata := valueSpecMetadata path pkgName tok v }], []) := by
  unfold processSpec
  rw [if_neg hv]
  rfl

/-- Under valid spans, the spec loop emits exactly one chunk per
type/value spec, in spec order, carrying that spec's own entity name and
line range. -/
theorem processSpecs_forall2 (path pkgName content : String) (tok : TokM) :
    ∀ specs : List SpecM,
      (∀ sp ∈ specs,
        ¬(sp.specStartOffset < 0 ∨ sp.specEndOffset > (content.length : Int) ∨
            sp.specStartOffset > sp.specEndOffset) ∧ sp.isImportSpecB = false) →
      List.Forall₂ (fun (sp : SpecM) (c : ChromaDocument) =>
          metaLookup "entity_name" c.metadata = some (.str sp.entityNameM) ∧
          metaLookup "start_line" c.metadata = some (.int sp.specStartLine) ∧
          metaLookup "end_line" c.metadata = some (.int sp.specEndLine))
        specs (combinePairs (specs.map (processSpec path pkgName content tok))).1 := by
  intro specs
  induction specs with
  | nil => intro _ ; exact List.Forall₂.nil
  | cons sp rest ih =>
    intro h
    obtain ⟨hv, himp⟩ := h sp (by simp)
    have hrest := ih (fun u hu => h u (by simp [hu]))
    cases sp with
    | typeSpec t =>
      rw [List.map_cons, processSpec_typeSpec path pkgName content tok t hv]
      exact List.Forall₂.cons ⟨rfl, rfl, rfl⟩ hrest
    | valueSpec v =>
      rw [List.map_cons, processSpec_valueSpec path pkgName content tok v hv]
      exact List.Forall₂.cons ⟨rfl, rfl, rfl⟩ hrest
    | importSpec a b u w => simp [SpecM.isImportSpecB] at himp

/-! ### Claim theorems about the Declaration Locator -/

/-- C5: the locator rejects invalid spans.  (a) A function declaration
whose computed span has `start < 0`, `end > bufferLength`, or
`start > end` produces no chunk and one diagnostic; (b) likewise for a
spec inside a grouped declaration, and processing continues with the
remaining declarations; (c) consequently every emitted chunk comes from
a span with `0 ≤ start ≤ end ≤ bufferLength` and its document is the
buffer slice `buffer[start:end]` of that span, prior to (i.e. as the
input of) canonicalization. -/
theorem locator_span_validation :
    (∀ (path pkgName content : String) (f : FuncDeclM),
        (f.startOffset < 0 ∨ f.endOffset > (content.length : Int) ∨
            f.startOffset > f.endOffset) →
        processDecl path pkgName content (.funcDecl f) =
          ([], [.invalidDeclSpan path f.startLine f.startOffset f.endOffset content.length]))
    ∧ (∀ (path pkgName content : String) (tok : TokM) (sp : SpecM),
        (sp.specStartOffset < 0 ∨ sp.specEndOffset > (content.length : Int) ∨
            sp.specStartOffset > sp.specEndOffset) →
        processSpec path pkgName content tok sp =
          ([], [.invalidSpecSpan path sp.specStartLine sp.specStartOffset
                  sp.specEndOffset content.length]))
    ∧ (∀ (path pkgName content : String) (d : DeclM) (rest : List DeclM),
        (processDecl path pkgName content d).1 = [] →
        (combinePairs ((d :: rest).map (processDecl path pkgName content))).1
          = (combinePairs (rest.map (processDecl path pkgName content))).1)
    ∧ (∀ (pkgName : String) (file : FileM) (c : ChromaDocument),
        c ∈ (processFileM pkgName file).1 →
        ∃ (content : String) (s e : Int) (al : List (String × String)),
          file.content = some content ∧
          0 ≤ s ∧ s ≤ e ∧ e ≤ (content.length : Int) ∧
          c.document = applyQualifierReplacements (strSlice content s.toNat e.toNat) al) := by
  refine ⟨?_, ?_, ?_, ?_⟩
  · intro path pkgName content f hv
    unfold processDecl
    simp only []
    rw [if_pos hv]
  · intro path pkgName content tok sp hv
    unfold processSpec
    rw [if_pos hv]
  · intro path pkgName content d rest hempty
    rw [List.map_cons, combinePairs_cons, hempty]
    rfl
  · intro pkgName file c hc
    obtain ⟨content, sLine, eLine, s, e, nm, al, hsome, h0, hse, hlen, _, hdoc, _, _⟩ :=
      processFileM_mem_chunk pkgName file c hc
    exact ⟨content, s, e, al, hsome, h0, hse, hlen, hdoc⟩

/-- Witness for `locator_span_validation` at concrete inputs: a function
declaration with span 5..99 in a 10-character buffer is rejected with a
diagnostic; a spec with negative start is rejected; a skipped
declaration leaves the remaining chunks unchanged; and the single chunk
of a one-declaration file is the canonicalization of its validated
buffer slice. -/
theorem locator_span_validation_witness :
    ((5 : Int) < 0 ∨ (99 : Int) > (("0123456789" : String).length : Int) ∨ (5 : Int) > 99)
    ∧ processDecl "/src/x.go" "p" "0123456789"
        (.funcDecl ⟨"f", none, "()", 1, 1, 5, 99, []⟩)
        = ([], [.invalidDeclSpan "/src/x.go" 1 5 99 10])
    ∧ ((SpecM.importSpec 1 1 (-3) 2).specStartOffset < 0 ∨
        (SpecM.importSpec 1 1 (-3) 2).specEndOffset > (("0123456789" : String).length : Int) ∨
        (SpecM.importSpec 1 1 (-3) 2).specStartOffset > (SpecM.importSpec 1 1 (-3) 2).specEndOffset)
    ∧ processSpec "/src/x.go" "p" "0123456789" .varTok (.importSpec 1 1 (-3) 2)
        = ([], [.invalidSpecSpan "/src/x.go" 1 (-3) 2 10])
    ∧ (⟨"f1", some "func f() {}", [.funcDecl ⟨"f", none, "()", 1, 1, 0, 11, []⟩]⟩ : FileM).content
        = some "func f() {}"
    ∧ ∃ (content : String) (s e : Int) (al : List (String × String)),
        (⟨"f1", some "func f() {}", [.funcDecl ⟨"f", none, "()", 1, 1, 0, 11, []⟩]⟩ : FileM).content
          = some content ∧
        0 ≤ s ∧ s ≤ e ∧ e ≤ (content.length : Int) ∧
        ({ id := mkChunkId "f1" 1 1 "f",
           document := applyQualifierReplacements (strSlice "func f() {}" 0 11) [],
           metadata := funcMetadata "f1" "p" ⟨"f", none, "()", 1, 1, 0, 11, []⟩ } :
            ChromaDocument).document
          = applyQualifierReplacements (strSlice content s.toNat e.toNat) al := by
  refine ⟨by decide, ?_, by decide, ?_, by decide, ?_⟩
  · exact locator_span_validation.1 "/src/x.go" "p" "0123456789"
      ⟨"f", none, "()", 1, 1, 5, 99, []⟩ (by decide)
  · exact locator_span_validation.2.1 "/src/x.go" "p" "0123456789" .varTok
      (.importSpec 1 1 (-3) 2) (by decide)
  · exact locator_span_validation.2.2.2 "p"
      ⟨"f1", some "func f() {}", [.funcDecl ⟨"f", none, "()", 1, 1, 0, 11, []⟩]⟩
      _ (by decide)

/-- The example grouped type declaration block: `type (` `A struct` ...
`B interface` ... `)` spanning three lines of the example buffer. -/
def exampleSpecA : SpecM := .typeSpec ⟨"A", 2, 2, 7, 17, .structShape, "struct{}", []⟩

/-- Second spec of the example group. -/
def exampleSpecB : SpecM := .typeSpec ⟨"B", 3, 3, 18, 31, .interfaceShape, "interface{}", []⟩

/-- The buffer of the example grouped declaration. -/
def exampleGroupBuffer : String := "type (\nA struct{}\nB interface{}\n)"

/-- C6: grouped declarations are split per spec.  (a) For every
non-import grouped declaration whose own span and all of whose specs'
spans are valid, the locator emits exactly one chunk per spec, in spec
order, carrying that spec's entity name and its own line range
(`List.Forall₂` pairs the spec list with the chunk list elementwise, so
the two have equal length).  (b) Import declarations produce no chunk at
all.  (c) In particular, the concrete group declaring `A struct` and
`B interface` yields exactly two chunks named "A" and "B" with
type_category "struct" and "interface" and disjoint per-spec line
ranges 2–2 and 3–3. -/
theorem locator_group_per_spec :
    (∀ (path pkgName content : String) (dLine : Nat) (ds de : Int) (tok : TokM)
        (specs : List SpecM),
        ¬(ds < 0 ∨ de > (content.length : Int) ∨ ds > de) →
        tok ≠ .importTok →
        (∀ sp ∈ specs,
          ¬(sp.specStartOffset < 0 ∨ sp.specEndOffset > (content.length : Int) ∨
              sp.specStartOffset > sp.specEndOffset) ∧ sp.isImportSpecB = false) →
        List.Forall₂ (fun (sp : SpecM) (c : ChromaDocument) =>
            metaLookup "entity_name" c.metadata = some (.str sp.entityNameM) ∧
            metaLookup "start_line" c.metadata = some (.int sp.specStartLine) ∧
            metaLookup "end_line" c.metadata = some (.int sp.specEndLine))
          specs (processDecl path pkgName content (.genDecl dLine ds de tok specs)).1)
    ∧ (∀ (path pkgName content : String) (dLine : Nat) (ds de : Int) (specs : List SpecM),
        ¬(ds < 0 ∨ de > (content.length : Int) ∨ ds > de) →
        processDecl path pkgName content (.genDecl dLine ds de .importTok specs) = ([], []))
    ∧ ((processDecl "/src/types.go" "mypkg" exampleGroupBuffer
          (.genDecl 1 0 33 .typeTok [exampleSpecA, exampleSpecB])).1.map
            (fun c => metaLookup "entity_name" c.metadata)
          = [some (.str "A"), some (.str "B")]
        ∧ (processDecl "/src/types.go" "mypkg" exampleGroupBuffer
            (.genDecl 1 0 33 .typeTok [exampleSpecA, exampleSpecB])).1.map
              (fun c => metaLookup "type_category" c.metadata)
            = [some (.str "struct"), some (.str "interface")]
        ∧ (processDecl "/src/types.go" "mypkg" exampleGroupBuffer
            (.genDecl 1 0 33 .typeTok [exampleSpecA, exampleSpecB])).1.map
              (fun c => (metaLookup "start_line" c.metadata, metaLookup "end_line" c.metadata))
            = [(some (.int 2), some (.int 2)), (some (.int 3), some (.int 3))]
        ∧ (processDecl "/src/types.go" "mypkg" exampleGroupBuffer
            (.genDecl 1 0 33 .typeTok [exampleSpecA, exampleSpecB])).1.map
              (fun c => c.document)
            = ["A struct{}", "B interface{}"]) := by
  refine ⟨?_, ?_, by decide, by decide, by decide, by decide⟩
  · intro path pkgName content dLine ds de tok specs hv ht hsp
    unfold processDecl
    simp only []
    rw [if_neg hv, if_neg ht]
    exact processSpecs_forall2 path pkgName content tok specs hsp
  · intro path pkgName content dLine ds de specs hv
    unfold processDecl
    simp only []
    rw [if_neg hv]
    simp

/-- Witness for `locator_group_per_spec`: its universally quantified
parts applied to the concrete example group (hypotheses discharged by
computation). -/
theorem locator_group_per_spec_witness :
    List.Forall₂ (fun (sp : SpecM) (c : ChromaDocument) =>
        metaLookup "entity_name" c.metadata = some (.str sp.entityNameM) ∧
        metaLookup "start_line" c.metadata = some (.int sp.specStartLine) ∧
        metaLookup "end_line" c.metadata = some (.int sp.specEndLine))
      [exampleSpecA, exampleSpecB]
      (processDecl "/src/types.go" "mypkg" exampleGroupBuffer
        (.genDecl 1 0 33 .typeTok [exampleSpecA, exampleSpecB])).1
    ∧ processDecl "/src/types.go" "mypkg" exampleGroupBuffer
        (.genDecl 1 0 33 .importTok [exampleSpecA, exampleSpecB]) = ([], []) := by
  constructor
  · exact locator_group_per_spec.1 "/src/types.go" "mypkg" exampleGroupBuffer 1 0 33
      .typeTok [exampleSpecA, exampleSpecB] (by decide) (by decide) (by decide)
  · exact locator_group_per_spec.2.1 "/src/types.go" "mypkg" exampleGroupBuffer 1 0 33
      [exampleSpecA, exampleSpecB] (by decide)

/-- C7: an unreadable file is skipped in isolation.  The file itself
produces no chunk and one logged diagnostic; the project's chunk list
equals the chunk list of the same project without that file; and
`processGoProject` returns a result, not an error. -/
theorem unreadable_file_isolated (pkgs1 pkgs2 : List PkgM) (pid pname : String)
    (fs1 fs2 : List FileM) (f : FileM) (hf : f.content = none) :
    processFileM pname f = ([], [.unreadableFile f.path])
    ∧ ∃ (withF withoutF : List ChromaDocument × List Diag),
        processGoProject (.ok (pkgs1 ++ ⟨pid, pname, true, fs1 ++ f :: fs2⟩ :: pkgs2))
          = .ok withF ∧
        processGoProject (.ok (pkgs1 ++ ⟨pid, pname, true, fs1 ++ fs2⟩ :: pkgs2))
          = .ok withoutF ∧
        withF.1 = withoutF.1 := by
  have hfile : processFileM pname f = ([], [.unreadableFile f.path]) := by
    unfold processFileM
    rw [hf]
  refine ⟨hfile,
    combinePairs ((pkgs1 ++ ⟨pid, pname, true, fs1 ++ f :: fs2⟩ :: pkgs2).map processPkg),
    combinePairs ((pkgs1 ++ ⟨pid, pname, true, fs1 ++ fs2⟩ :: pkgs2).map processPkg),
    rfl, rfl, ?_⟩
  simp only [List.map_append, List.map_cons, combinePairs_append, combinePairs_cons]
  simp only [processPkg, List.map_append, List.map_cons, combinePairs_append,
    combinePairs_cons, hfile]
  simp

/-- A readable one-declaration file, for the C7 witness project. -/
def exampleGoodFile : FileM :=
  ⟨"/src/ok.go", some "func g() {}", [.funcDecl ⟨"g", none, "()", 1, 1, 0, 11, []⟩]⟩

/-- An unreadable file (its buffer cannot be obtained). -/
def exampleBadFile : FileM := ⟨"/src/bad.go", none, []⟩

/-- Witness for `unreadable_file_isolated`: a two-file package whose
first file is unreadable still yields the second file's chunks, and no
error. -/
theorem unreadable_file_isolated_witness :
    exampleBadFile.content = none
    ∧ (processFileM "main" exampleBadFile = ([], [.unreadableFile exampleBadFile.path])
        ∧ ∃ (withF withoutF : List ChromaDocument × List Diag),
            processGoProject
                (.ok ([] ++ ⟨"pid", "main", true, [] ++ exampleBadFile :: [exampleGoodFile]⟩ :: []))
              = .ok withF ∧
            processGoProject
                (.ok ([] ++ ⟨"pid", "main", true, [] ++ [exampleGoodFile]⟩ :: []))
              = .ok withoutF ∧
            withF.1 = withoutF.1) :=
  ⟨rfl, unreadable_file_isolated [] [] "pid" "main" [] [exampleGoodFile] exampleBadFile rfl⟩

/-! ### Decimal rendering lemmas, for chunk-id injectivity -/

theorem digitChar_isDigit (d : Nat) (hd : d < 10) : (Nat.digitChar d).isDigit = true := by
  interval_cases d <;> decide

theorem natToDigits_isDigit :
    ∀ (fuel n : Nat) (c : Char), c ∈ natToDigits fuel n → c.isDigit = true := by
  intro fuel
  induction fuel with
  | zero => intro n c hc ; simp [natToDigits] at hc
  | succ fuel ih =>
    intro n c hc
    simp only [natToDigits] at hc
    by_cases h : n < 10
    · rw [if_pos h] at hc
      simp only [List.mem_singleton] at hc
      subst hc
      exact digitChar_isDigit n h
    · rw [if_neg h] at hc
      rcases List.mem_append.mp hc with h' | h'
      · exact ih (n / 10) c h'
      · simp only [List.mem_singleton] at h'
        subst h'
        exact digitChar_isDigit (n % 10) (Nat.mod_lt n (by omega))

theorem natRepr_isDigit (n : Nat) (c : Char) (hc : c ∈ (natRepr n).data) :
    c.isDigit = true :=
  natToDigits_isDigit (n + 1) n c hc

theorem digitChar_inj_lt (d d' : Nat) (hd : d < 10) (hd' : d' < 10)
    (h : Nat.digitChar d = Nat.digitChar d') : d = d' := by
  interval_cases d <;> interval_cases d' <;> first | rfl | exact absurd h (by decide)

theorem natToDigits_ne_nil (fuel n : Nat) (h : n < fuel) : natToDigits fuel n ≠ [] := by
  cases fuel with
  | zero => omega
  | succ fuel =>
    simp only [natToDigits]
    by_cases h10 : n < 10
    · rw [if_pos h10] ; simp
    · rw [if_neg h10] ; simp

theorem natToDigits_inj :
    ∀ (n fuel m fuel' : Nat), n < fuel → m < fuel' →
      natToDigits fuel n = natToDigits fuel' m → n = m := by
  intro n
  induction n using Nat.strong_induction_on with
  | _ n ih =>
    intro fuel m fuel' hn hm heq
    cases fuel with
    | zero => omega
    | succ fuel =>
      cases fuel' with
      | zero => omega
      | succ fuel' =>
        simp only [natToDigits] at heq
        by_cases h1 : n < 10 <;> by_cases h2 : m < 10
        · rw [if_pos h1, if_pos h2] at heq
          simp only [List.cons.injEq] at heq
          exact digitChar_inj_lt n m h1 h2 heq.1
        · rw [if_pos h1, if_neg h2] at heq
          exfalso
          have hne := natToDigits_ne_nil fuel' (m / 10)
            (by have := Nat.div_lt_self (by omega : 0 < m) (by omega : 1 < 10) ; omega)
          cases hrec : natToDigits fuel' (m / 10) with
          | nil => exact hne hrec
          | cons a l =>
            rw [hrec] at heq
            have := congrArg List.length heq
            simp at this
        · rw [if_neg h1, if_pos h2] at heq
          exfalso
          have hne := natToDigits_ne_nil fuel (n / 10)
            (by have := Nat.div_lt_self (by omega : 0 < n) (by omega : 1 < 10) ; omega)
          cases hrec : natToDigits fuel (n / 10) with
          | nil => exact hne hrec
          | cons a l =>
            rw [hrec] at heq
            have := congrArg List.length heq
            simp at this
        · rw [if_neg h1, if_neg h2] at heq
          have hlen : ([Nat.digitChar (n % 10)] : List Char).length
              = ([Nat.digitChar (m % 10)] : List Char).length := by simp
          obtain ⟨heq1, heq2⟩ := List.append_inj' heq hlen
          have hdiv : n / 10 = m / 10 := by
            refine ih (n / 10) (Nat.div_lt_self (by omega) (by omega)) fuel (m / 10) fuel' ?_ ?_ heq1
            · have := Nat.div_lt_self (by omega : 0 < n) (by omega : 1 < 10) ; omega
            · have := Nat.div_lt_self (by omega : 0 < m) (by omega : 1 < 10) ; omega
          have hmod : n % 10 = m % 10 := by
            simp only [List.cons.injEq] at heq2
            exact digitChar_inj_lt _ _ (Nat.mod_lt n (by omega)) (Nat.mod_lt m (by omega)) heq2.1
          omega

theorem string_data_inj (a b : String) (h : a.data = b.data) : a = b := by
  cases a ; cases b ; exact congrArg String.mk h

theorem natRepr_data_inj (n m : Nat) (h : (natRepr n).data = (natRepr m).data) : n = m :=
  natToDigits_inj n (n + 1) m (m + 1) (by omega) (by omega) (by simpa [natRepr] using h)

theorem string_data_append (a b : String) : (a ++ b).data = a.data ++ b.data := by
  cases a ; cases b ; rfl

theorem append_sep_cancel (sep : Char) :
    ∀ (a b rest rest' : List Char), sep ∉ a → sep ∉ b →
      a ++ sep :: rest = b ++ sep :: rest' → a = b ∧ rest = rest' := by
  intro a
  induction a with
  | nil =>
    intro b rest rest' _ hb h
    cases b with
    | nil => simpa using h
    | cons y ys =>
      simp only [List.nil_append, List.cons_append, List.cons.injEq] at h
      exact absurd (h.1 ▸ List.mem_cons_self y ys) hb
  | cons x xs ih =>
    intro b rest rest' ha hb h
    cases b with
    | nil =>
      simp only [List.cons_append, List.nil_append, List.cons.injEq] at h
      exact absurd (h.1.symm ▸ List.mem_cons_self x xs) ha
    | cons y ys =>
      simp only [List.cons_append, List.cons.injEq] at h
      obtain ⟨hxy, htail⟩ := h
      have hx : sep ∉ xs := fun hm => ha (List.mem_cons_of_mem x hm)
      have hy : sep ∉ ys := fun hm => hb (List.mem_cons_of_mem y hm)
      obtain ⟨h1, h2⟩ := ih ys rest rest' hx hy htail
      exact ⟨by rw [hxy, h1], h2⟩

theorem mkChunkId_data (path : String) (sLine eLine : Nat) (nm : String) :
    (mkChunkId path sLine eLine nm).data
      = path.data ++ ':' :: ((natRepr sLine).data ++ '-' :: ((natRepr eLine).data
          ++ '-' :: nm.data)) := by
  simp [mkChunkId, string_data_append, List.append_assoc]

theorem natRepr_no_dash (n : Nat) : ('-' : Char) ∉ (natRepr n).data := by
  intro hmem
  have := natRepr_isDigit n '-' hmem
  simp at this

/-- For a fixed file path, the chunk id determines the start line, end
line, and name that went into it. -/
theorem mkChunkId_inj (path : String) (sLine eLine sLine' eLine' : Nat) (nm nm' : String)
    (h : mkChunkId path sLine eLine nm = mkChunkId path sLine' eLine' nm') :
    sLine = sLine' ∧ eLine = eLine' ∧ nm = nm' := by
  have hd := congrArg String.data h
  rw [mkChunkId_data, mkChunkId_data] at hd
  have h1 := List.append_cancel_left hd
  simp only [List.cons.injEq, true_and] at h1
  obtain ⟨hs, h2⟩ := append_sep_cancel '-' _ _ _ _
    (natRepr_no_dash sLine) (natRepr_no_dash sLine') h1
  obtain ⟨he, h3⟩ := append_sep_cancel '-' _ _ _ _
    (natRepr_no_dash eLine) (natRepr_no_dash eLine') h2
  exact ⟨natRepr_data_inj _ _ hs, natRepr_data_inj _ _ he, string_data_inj _ _ h3⟩

/-! ### Claim theorems about chunk ids -/

/-- A legal Go source file declaring two `init` functions on one line
(multiple `init` functions are allowed in Go, and top-level declarations
may be separated by semicolons). -/
def exampleInitFile : FileM :=
  ⟨"/src/a.go", some "func init() { f() }; func init() { g() }",
    [.funcDecl ⟨"init", none, "()", 1, 1, 0, 19, []⟩,
     .funcDecl ⟨"init", none, "()", 1, 1, 21, 40, []⟩]⟩

/-- The chunk the locator emits for the first `init` declaration. -/
def exampleInitChunk1 : ChromaDocument :=
  { id := "/src/a.go:1-1-init", document := "func init() { f() }",
    metadata := funcMetadata "/src/a.go" "main" ⟨"init", none, "()", 1, 1, 0, 19, []⟩ }

/-- The chunk the locator emits for the second `init` declaration. -/
def exampleInitChunk2 : ChromaDocument :=
  { id := "/src/a.go:1-1-init", document := "func init() { g() }",
    metadata := funcMetadata "/src/a.go" "main" ⟨"init", none, "()", 1, 1, 21, 40, []⟩ }

/-- C8 counterexample: two chunks produced from the same source file CAN
share an id.  The file `func init() { f() }; func init() { g() }`
yields two chunks whose ids are both "/src/a.go:1-1-init": the two
declarations share the line range and the name used in the id, so the
id list of this single file is not duplicate-free. -/
theorem chunk_id_collision_cex :
    ((processFileM "main" exampleInitFile).1.map (fun c => c.id))
        = ["/src/a.go:1-1-init", "/src/a.go:1-1-init"]
    ∧ ¬ ((processFileM "main" exampleInitFile).1.map (fun c => c.id)).Nodup := by
  constructor <;> decide

/-- C8 amended: the id is injective in what it is derived from — for a
fixed file, two emitted chunks share an id only if they share the exact
line range (and the id's name component).  Chunks of one file whose
line ranges differ therefore never collide; collisions require two
same-named declarations on the same line range, as in the
counterexample. -/
theorem chunk_id_determines_line_range (pkgName : String) (file : FileM)
    (c1 c2 : ChromaDocument)
    (h1 : c1 ∈ (processFileM pkgName file).1) (h2 : c2 ∈ (processFileM pkgName file).1)
    (hid : c1.id = c2.id) :
    metaLookup "start_line" c1.metadata = metaLookup "start_line" c2.metadata ∧
    metaLookup "end_line" c1.metadata = metaLookup "end_line" c2.metadata := by
  obtain ⟨_, s1, e1, _, _, n1, _, _, _, _, _, hid1, _, hs1, he1⟩ :=
    processFileM_mem_chunk pkgName file c1 h1
  obtain ⟨_, s2, e2, _, _, n2, _, _, _, _, _, hid2, _, hs2, he2⟩ :=
    processFileM_mem_chunk pkgName file c2 h2
  rw [hid1, hid2] at hid
  obtain ⟨hs, he, _⟩ := mkChunkId_inj file.path s1 e1 s2 e2 n1 n2 hid
  subst hs ; subst he
  rw [hs1, hs2, he1, he2]
  exact ⟨rfl, rfl⟩

/-- Witness for `chunk_id_determines_line_range`: the two colliding
`init` chunks of the example file do share their line-range metadata. -/
theorem chunk_id_determines_line_range_witness :
    exampleInitChunk1 ∈ (processFileM "main" exampleInitFile).1
    ∧ exampleInitChunk2 ∈ (processFileM "main" exampleInitFile).1
    ∧ exampleInitChunk1.id = exampleInitChunk2.id
    ∧ (metaLookup "start_line" exampleInitChunk1.metadata
          = metaLookup "start_line" exampleInitChunk2.metadata ∧
        metaLookup "end_line" exampleInitChunk1.metadata
          = metaLookup "end_line" exampleInitChunk2.metadata) :=
  ⟨by decide, by decide, by decide,
    chunk_id_determines_line_range "main" exampleInitFile exampleInitChunk1 exampleInitChunk2
      (by decide) (by decide) (by decide)⟩

/-! ### Totality of the type-rendering fallback chain -/

theorem exprSize_pos : ∀ e : GoExpr, 0 < exprSize e := by
  intro e ; cases e <;> simp [exprSize]

theorem fieldListSize_pos : ∀ fl : GoFieldList, 0 < fieldListSize fl := by
  intro fl ; cases fl <;> simp [fieldListSize]

theorem funcTypeSize_pos : ∀ ft : GoFuncType, 0 < funcTypeSize ft := by
  intro ft
  cases ft with
  | mk params results =>
    rw [funcTypeSize.eq_def]
    simp only []
    omega

theorem getTypeString_total_aux (info : TypesInfoM) :
    ∀ fuel : Nat,
      (∀ e : GoExpr, exprSize e ≤ fuel → (getTypeString info fuel e).isSome = true) ∧
      (∀ fl : GoFieldList, fieldListSize fl ≤ fuel → (fieldStrings info fuel fl).isSome = true) ∧
      (∀ ft : GoFuncType, funcTypeSize ft ≤ fuel → (getSignature info fuel ft).isSome = true) := by
  intro fuel
  induction fuel with
  | zero =>
    refine ⟨?_, ?_, ?_⟩
    · intro e he ; have := exprSize_pos e ; omega
    · intro fl hfl ; have := fieldListSize_pos fl ; omega
    · intro ft hft ; have := funcTypeSize_pos ft ; omega
  | succ fuel ih =>
    obtain ⟨ihE, ihL, ihS⟩ := ih
    refine ⟨?_, ?_, ?_⟩
    · intro e he
      cases htv : info.typeOf e with
      | some tv => simp [getTypeString, htv]
      | none =>
        cases e with
        | identE n => simp [getTypeString, htv]
        | starE x =>
          have hx := ihE x (by simp [exprSize] at he ; omega)
          simp [getTypeString, htv, hx]
        | arrayTypeE elt =>
          have hx := ihE elt (by simp [exprSize] at he ; omega)
          simp [getTypeString, htv, hx]
        | mapTypeE k v =>
          have hk := ihE k (by simp [exprSize] at he ; omega)
          have hv := ihE v (by simp [exprSize] at he ; omega)
          obtain ⟨ks, hks⟩ := Option.isSome_iff_exists.mp hk
          obtain ⟨vs, hvs⟩ := Option.isSome_iff_exists.mp hv
          simp [getTypeString, htv, hks, hvs]
        | selectorE x sel =>
          have hx := ihE x (by simp [exprSize] at he ; omega)
          cases x with
          | identE n =>
            cases hu : info.usesPkgPath n with
            | some path => simp [getTypeString, htv, hu]
            | none => simp [getTypeString, htv, hu, hx]
          | starE y => simp [getTypeString, htv, hx]
          | arrayTypeE y => simp [getTypeString, htv, hx]
          | mapTypeE a b => simp [getTypeString, htv, hx]
          | selectorE y s2 => simp [getTypeString, htv, hx]
          | interfaceTypeE => simp [getTypeString, htv, hx]
          | chanTypeE d y => simp [getTypeString, htv, hx]
          | ellipsisE y => simp [getTypeString, htv, hx]
          | funcTypeE ft => simp [getTypeString, htv, hx]
          | otherExpr p tag => simp [getTypeString, htv, hx]
        | interfaceTypeE => simp [getTypeString, htv]
        | chanTypeE dir v =>
          have hx := ihE v (by simp [exprSize] at he ; omega)
          simp [getTypeString, htv, hx]
        | ellipsisE elt =>
          have hx := ihE elt (by simp [exprSize] at he ; omega)
          simp [getTypeString, htv, hx]
        | funcTypeE ft =>
          have hs := ihS ft (by simp [exprSize] at he ; omega)
          simp [getTypeString, htv, hs]
        | otherExpr printed typeTag => simp [getTypeString, htv]
    · intro fl hfl
      cases fl with
      | nil => simp [fieldStrings]
      | cons names fieldType rest =>
        have ht := ihE fieldType (by simp [fieldListSize] at hfl ; omega)
        have hr := ihL rest (by simp [fieldListSize] at hfl ; omega)
        obtain ⟨ts, hts⟩ := Option.isSome_iff_exists.mp ht
        obtain ⟨rs, hrs⟩ := Option.isSome_iff_exists.mp hr
        by_cases hn : names.isEmpty
        · simp [fieldStrings, hts, hrs, hn]
        · simp [fieldStrings, hts, hrs, hn]
    · intro ft hft
      obtain ⟨params, results⟩ := ft
      cases params with
      | none =>
        cases results with
        | none => simp [getSignature]
        | some rfl' =>
          have hr := ihL rfl' (by rw [funcTypeSize.eq_def] at hft ; simp only [] at hft ; omega)
          obtain ⟨rs, hrs⟩ := Option.isSome_iff_exists.mp hr
          simp [getSignature, hrs]
      | some pfl =>
        have hp := ihL pfl (by rw [funcTypeSize.eq_def] at hft ; simp only [] at hft ; omega)
        obtain ⟨ps, hpsv⟩ := Option.isSome_iff_exists.mp hp
        cases results with
        | none => simp [getSignature, hpsv]
        | some rfl' =>
          have hr := ihL rfl' (by rw [funcTypeSize.eq_def] at hft ; simp only [] at hft ; omega)
          obtain ⟨rs, hrs⟩ := Option.isSome_iff_exists.mp hr
          simp [getSignature, hpsv, hrs]

/-- C9: the type-rendering fallback chain is total.  `getTypeString`
returns `none` only on fuel exhaustion, and fuel at least the size of
the expression always suffices: for every expression node and every
behaviour of the resolved-type and printing oracles, the function
terminates with some string (resolved type, syntactic reconstruction,
printed dump, or the type tag as a last resort). -/
theorem getTypeString_total (info : TypesInfoM) (e : GoExpr) (fuel : Nat)
    (h : exprSize e ≤ fuel) : (getTypeString info fuel e).isSome = true :=
  (getTypeString_total_aux info fuel).1 e h

/-- Witness for `getTypeString_total`: with both oracles failing
everywhere, a pointer-to-selector expression still renders. -/
theorem getTypeString_total_witness :
    exprSize (GoExpr.starE (.selectorE (.identE "pkg") "T")) ≤ 3
    ∧ (getTypeString ⟨fun _ => none, fun _ => none⟩ 3
        (GoExpr.starE (.selectorE (.identE "pkg") "T"))).isSome = true :=
  ⟨by decide,
    getTypeString_total ⟨fun _ => none, fun _ => none⟩
      (GoExpr.starE (.selectorE (.identE "pkg") "T")) 3 (by decide)⟩

end GoAstChroma
